import Mathlib

/-
Verification of the OpenGL shader transpilation pipeline
(Plugins/NativeEngine/Source/ShaderCompilerOpenGL.cpp).

The development shallowly embeds the file's logic: shader text is a list of
characters, the std::string find/replace idioms become first-occurrence
splitting functions, the SPIRV-Cross compiler state (names and binding
decorations of resources) becomes an explicit record of maps, and the
per-stage transpilation `CompileShader` together with the entry point
`ShaderCompiler.Compile` become total functions returning `Except`.
-/

/-- Shader text is modelled as a list of characters. -/
abbrev Str := List Char

/-- Coerce a string literal into the character-list representation. -/
def lit (s : String) : Str := s.toList

/-- First-occurrence search, the embedding of `std::string::find`: returns the
text split around the first occurrence of `pat`, or `none` if `pat` does not
occur. -/
def splitFirst (pat : Str) : Str → Option (Str × Str)
  | [] => cond (pat.isPrefixOf ([] : Str)) (some ([], [])) none
  | c :: t =>
    cond (pat.isPrefixOf (c :: t)) (some ([], (c :: t).drop pat.length))
      (match splitFirst pat t with
       | some (a, b) => some (c :: a, b)
       | none => none)

/-- Whether `pat` occurs as a contiguous substring of `s`. -/
def containsSub (pat s : Str) : Bool := (splitFirst pat s).isSome

/-- The embedding of a single `find` + `replace(pos, pat.size, rep)` on a
`std::string`: replace the first occurrence of `pat` by `rep`, or leave the
text unchanged when `pat` does not occur. -/
def replaceFirst (pat rep s : Str) : Str :=
  match splitFirst pat s with
  | some (a, b) => a ++ rep ++ b
  | none => s

/-- Fuel-indexed worker for `removeAll`. -/
def removeAllFuel (pat : Str) : Nat → Str → Str
  | 0, s => s
  | fuel + 1, s =>
    match splitFirst pat s with
    | some (a, b) => removeAllFuel pat fuel (a ++ b)
    | none => s

/-- The embedding of the `while (pos != npos) replace(pos, pat.size, "")`
loop: delete occurrences of `pat`, re-searching from the start of the text
after each deletion, until none remains. -/
def removeAll (pat s : Str) : Str := removeAllFuel pat s.length s

/-- Emit each header line followed by a newline, in order. -/
def joinLines (headers : List Str) : Str :=
  headers.foldr (fun h acc => h ++ '\n' :: acc) []

theorem isPrefixOf_eq_append {pat s : Str} (h : pat.isPrefixOf s = true) :
    s = pat ++ s.drop pat.length := by
  induction pat generalizing s with
  | nil => simp
  | cons p ps ih =>
    cases s with
    | nil => simp [List.isPrefixOf] at h
    | cons c t =>
      simp only [List.isPrefixOf, Bool.and_eq_true, beq_iff_eq] at h
      obtain ⟨rfl, h2⟩ := h
      simpa [List.length_cons, List.drop] using congrArg (p :: ·) (ih h2)

theorem isPrefixOf_append (pat b : Str) : pat.isPrefixOf (pat ++ b) = true := by
  induction pat with
  | nil => simp [List.isPrefixOf]
  | cons p ps ih => simp [List.isPrefixOf, ih]

theorem isPrefixOf_nil {pat : Str} (h : pat.isPrefixOf ([] : Str) = true) :
    pat = [] := by
  cases pat with
  | nil => rfl
  | cons p ps => simp [List.isPrefixOf] at h

/-- Soundness of `splitFirst`: a successful split reassembles the input. -/
theorem splitFirst_eq_append {pat s a b : Str}
    (h : splitFirst pat s = some (a, b)) : s = a ++ pat ++ b := by
  induction s generalizing a b with
  | nil =>
    cases hp : pat.isPrefixOf ([] : Str) with
    | true =>
      have hpat : pat = [] := isPrefixOf_nil hp
      rw [splitFirst, hp] at h
      simp at h
      obtain ⟨rfl, rfl⟩ := h
      simp [hpat]
    | false => rw [splitFirst, hp] at h; simp at h
  | cons c t ih =>
    cases hp : pat.isPrefixOf (c :: t) with
    | true =>
      rw [splitFirst, hp] at h
      simp at h
      obtain ⟨rfl, rfl⟩ := h
      simpa using isPrefixOf_eq_append hp
    | false =>
      rw [splitFirst, hp] at h
      simp only [cond_false] at h
      cases hrec : splitFirst pat t with
      | none => rw [hrec] at h; simp at h
      | some p =>
        obtain ⟨x, y⟩ := p
        rw [hrec] at h
        simp at h
        obtain ⟨rfl, rfl⟩ := h
        simpa using ih hrec

/-- A failed split means the pattern does not occur. -/
theorem splitFirst_none_of_not_contains {pat s : Str}
    (h : containsSub pat s = false) : splitFirst pat s = none := by
  unfold containsSub at h
  cases hs : splitFirst pat s with
  | none => rfl
  | some p => rw [hs] at h; simp at h

theorem contains_of_splitFirst_some {pat s : Str} {p : Str × Str}
    (h : splitFirst pat s = some p) : containsSub pat s = true := by
  simp [containsSub, h]

theorem containsSub_of_isPrefixOf {pat s : Str} (h : pat.isPrefixOf s = true) :
    containsSub pat s = true := by
  cases s with
  | nil => simp [containsSub, splitFirst, h]
  | cons c t => simp [containsSub, splitFirst, h]

/-- Any text of the shape `a ++ q ++ b` contains `q`. -/
theorem containsSub_append_middle (q a b : Str) :
    containsSub q (a ++ q ++ b) = true := by
  induction a with
  | nil => simpa using containsSub_of_isPrefixOf (isPrefixOf_append q b)
  | cons c t ih =>
    rw [List.cons_append, List.cons_append, containsSub, splitFirst]
    cases hp : q.isPrefixOf (c :: (t ++ q ++ b)) with
    | true => simp
    | false =>
      simp only [cond_false]
      rw [containsSub] at ih
      simp only [List.append_assoc] at ih ⊢
      cases hrec : splitFirst q (t ++ (q ++ b)) with
      | none => rw [hrec] at ih; simp at ih
      | some p => simp

/-- Replacing at a successful split yields the reassembled text with the
replacement in place of the first occurrence. -/
theorem replaceFirst_eq_of_splitFirst {pat rep s a b : Str}
    (h : splitFirst pat s = some (a, b)) :
    replaceFirst pat rep s = a ++ rep ++ b := by
  simp [replaceFirst, h]

theorem replaceFirst_of_not_contains {pat rep s : Str}
    (h : containsSub pat s = false) : replaceFirst pat rep s = s := by
  simp [replaceFirst, splitFirst_none_of_not_contains h]

/-- Deleting the first occurrence strictly shortens the text when the pattern
is nonempty. -/
theorem splitFirst_length_lt {pat s a b : Str} (hpat : pat ≠ [])
    (h : splitFirst pat s = some (a, b)) : (a ++ b).length < s.length := by
  have hs := splitFirst_eq_append h
  have hlen : 0 < pat.length := List.length_pos.mpr hpat
  subst hs
  simp [List.length_append]
  omega

theorem splitFirst_nil_of_ne {pat : Str} (hpat : pat ≠ []) :
    splitFirst pat ([] : Str) = none := by
  cases hp : pat.isPrefixOf ([] : Str) with
  | true => exact absurd (isPrefixOf_nil hp) hpat
  | false => rw [splitFirst, hp]; rfl

theorem removeAllFuel_not_contains {pat : Str} (hpat : pat ≠ []) :
    ∀ fuel s, s.length ≤ fuel →
      containsSub pat (removeAllFuel pat fuel s) = false := by
  intro fuel
  induction fuel with
  | zero =>
    intro s hs
    have hnil : s = [] := List.eq_nil_of_length_eq_zero (Nat.le_zero.mp hs)
    subst hnil
    simp [removeAllFuel, containsSub, splitFirst_nil_of_ne hpat]
  | succ n ih =>
    intro s hs
    rw [removeAllFuel]
    cases hsp : splitFirst pat s with
    | none => simp [containsSub, hsp]
    | some p =>
      obtain ⟨a, b⟩ := p
      have hlt := splitFirst_length_lt hpat hsp
      exact ih (a ++ b) (by omega)

/-- After the removal loop no occurrence of the (nonempty) pattern remains. -/
theorem containsSub_removeAll {pat : Str} (hpat : pat ≠ []) (s : Str) :
    containsSub pat (removeAll pat s) = false :=
  removeAllFuel_not_contains hpat s.length s (Nat.le_refl _)

/-- When the pattern does not occur, the removal loop leaves the text alone. -/
theorem removeAll_of_not_contains {pat s : Str}
    (h : containsSub pat s = false) : removeAll pat s = s := by
  unfold removeAll
  cases hl : s.length with
  | zero => simp [removeAllFuel]
  | succ n => simp [removeAllFuel, splitFirst_none_of_not_contains h]

/-- Shader stage, the embedding of glslang's `EShLanguage` restricted to the
two stages the file uses. -/
inductive EShLanguage
  | EShLangVertex
  | EShLangFragment
deriving DecidableEq

/-- A reflected resource from `spirv_cross::ShaderResources` (its SPIR-V id
and the reflected name used by the reconciliation loop). -/
structure Resource where
  id : Nat
  name : Str
deriving DecidableEq

/-- An entry of `get_combined_image_samplers()`: the freshly created combined
resource and the ids of the texture and sampler it was built from. -/
structure CombinedImageSampler where
  combined_id : Nat
  image_id : Nat
  sampler_id : Nat
deriving DecidableEq

/-- The numeric shape and reflected name of one member of the uniform-buffer
struct type (`columns`/`vecsize` of the member's `SPIRType`). -/
structure MemberInfo where
  name : Str
  columns : Nat
  vecsize : Nat
deriving DecidableEq

/-- A reflected uniform-buffer resource together with the members of its base
struct type. -/
structure UniformBufferRes where
  id : Nat
  members : List MemberInfo
deriving DecidableEq

/-- The mutable per-id state of the SPIRV-Cross compiler that the file touches:
`set_name`/`get_name` and the `Binding` decoration
(`set_decoration`/`get_decoration`/`unset_decoration`). -/
structure SymbolState where
  name : Nat → Str
  binding : Nat → Option Nat

/-- The embedding of `Compiler::set_name`. -/
def SymbolState.set_name (st : SymbolState) (id : Nat) (n : Str) : SymbolState :=
  { st with name := fun i => if i = id then n else st.name i }

/-- The embedding of `Compiler::set_decoration` for `DecorationBinding`. -/
def SymbolState.set_decoration (st : SymbolState) (id : Nat) (b : Nat) : SymbolState :=
  { st with binding := fun i => if i = id then some b else st.binding i }

/-- The embedding of `Compiler::unset_decoration` for `DecorationBinding`. -/
def SymbolState.unset_decoration (st : SymbolState) (id : Nat) : SymbolState :=
  { st with binding := fun i => if i = id then none else st.binding i }

/-- The embedding of `Compiler::get_decoration` for `DecorationBinding`;
SPIRV-Cross returns 0 when the decoration is unset. -/
def SymbolState.get_decoration (st : SymbolState) (id : Nat) : Nat :=
  (st.binding id).getD 0

/-- The semantic model of one stage after `build_combined_image_samplers()`:
the reflected resources, the combined-sampler list, the compiler's symbol
state, and the body text that the emitter would print after the version
directive and the added header lines. -/
structure StageModel where
  separate_samplers : List Resource
  combinedSamplers : List CombinedImageSampler
  uniform_buffers : List UniformBufferRes
  symbols : SymbolState
  body : Str

/-- Errors of the pipeline. The C++ signals every failure by throwing a bare
`std::exception`; the embedding distinguishes the throw sites. The
`missingUniformBuffer` case is the out-of-bounds branch that a total embedding
of the unchecked `resources.uniform_buffers[0]` indexing must add. -/
inductive CompileError
  | parseFailure
  | linkFailure
  | unsupportedUniformShape
  | missingUniformBuffer
deriving DecidableEq

/-- The per-stage result handed to the caller: the compiler handle's final
symbol state, the text as emitted by `compile()` (before textual cleanup),
and the final patched text stored into the `glsl` out-parameter. -/
structure StageOutput where
  symbols : SymbolState
  emitted : Str
  text : Str

/-- The inner loop of the sampler reconciliation: scan the combined-sampler
list for the first entry whose `sampler_id` equals the separate sampler's id;
on a match the write target becomes the combined id, otherwise it stays the
separate sampler's own id. -/
def combinedTarget (combinedSamplers : List CombinedImageSampler) (id : Nat) : Nat :=
  match combinedSamplers.find? (fun combined => combined.sampler_id == id) with
  | some combined => combined.combined_id
  | none => id

/-- One iteration of the reconciliation loop body: read the separate sampler's
current binding decoration, resolve the write target, then transfer the
reflected name and the binding onto the target. -/
def reconcileSamplerStep (combinedSamplers : List CombinedImageSampler)
    (st : SymbolState) (separate : Resource) : SymbolState :=
  let binding := st.get_decoration separate.id
  let target := combinedTarget combinedSamplers separate.id
  (st.set_name target separate.name).set_decoration target binding

/-- The sampler reconciliation loop over all separate samplers. -/
def reconcileSamplers (combinedSamplers : List CombinedImageSampler)
    (separate_samplers : List Resource) (st : SymbolState) : SymbolState :=
  separate_samplers.foldl (reconcileSamplerStep combinedSamplers) st

/-- The uniform-flattening shape dispatch: a 1-column 4-component member emits
`vec4 `, a 4-column 4-component member emits `mat4 `, anything else throws. -/
def uniformDecl (m : MemberInfo) : Except CompileError Str :=
  if m.columns = 1 ∧ m.vecsize = 4 then
    .ok (lit "uniform " ++ lit "vec4 " ++ m.name ++ lit ";")
  else if m.columns = 4 ∧ m.vecsize = 4 then
    .ok (lit "uniform " ++ lit "mat4 " ++ m.name ++ lit ";")
  else
    .error .unsupportedUniformShape

/-- The header-building loop over the members of the first uniform buffer
(`add_header_line` collects the flat declarations in member order). -/
def buildHeaders : List MemberInfo → Except CompileError (List Str)
  | [] => .ok []
  | m :: rest =>
    match uniformDecl m with
    | .error e => .error e
    | .ok d =>
      match buildHeaders rest with
      | .error e => .error e
      | .ok ds => .ok (d :: ds)

/-- The stage-qualified name given to the now-unused uniform struct instance. -/
def unusedName : EShLanguage → Str
  | .EShLangVertex => lit "UnusedVS"
  | .EShLangFragment => lit "UnusedFS"

/-- The literal the comment-out step searches for. -/
def unusedUniform : Str := lit "uniform Frame Unused"

/-- The replacement that comments the stray declaration line out. -/
def commentedUnusedUniform : Str := lit "//uniform Frame Unused"

/-- The stage-qualified accessor whose occurrences are all deleted. -/
def unusedUniformAccess : EShLanguage → Str
  | .EShLangVertex => lit "UnusedVS."
  | .EShLangFragment => lit "UnusedFS."

/-- The version directive of the constrained (Android) preset. -/
def versionDirectiveES : Str := lit "#version 300 es\n"

/-- The version directive of the desktop preset. -/
def versionDirectiveDesktop : Str := lit "#version 430\n"

/-- Modelled from the spec: the emission step of the external SPIRV-Cross
transpiler (`CompilerGLSL::compile()`), which is not part of this repository.
Per the spec, the text starts with the version directive of the configured
preset, the lines added through `add_header_line` are prepended before the
emitted body, and the body follows. -/
def emitText (android : Bool) (headers : List Str) (body : Str) : Str :=
  (if android then versionDirectiveES else versionDirectiveDesktop) ++
    joinLines headers ++ body

/-- The textual cleanup of the emitted code: comment out the first occurrence
of the unused uniform declaration marker, then delete every occurrence of the
stage-qualified accessor. -/
def cleanupText (stage : EShLanguage) (compiled : Str) : Str :=
  removeAll (unusedUniformAccess stage)
    (replaceFirst unusedUniform commentedUnusedUniform compiled)

/-- The explicit fragment-output declaration searched for under the Android
preset. -/
def fragDef : Str := lit "layout(location = 0) out highp vec4 glFragColor;"

/-- The fragment-output variable name rewritten under the Android preset. -/
def fragColor : Str := lit "glFragColor"

/-- The Android-only post-processing: drop the leading version directive by
length, delete the first occurrence of the fragment-output declaration, and
replace the first occurrence of the fragment-output name by `gl_FragColor`. -/
def androidPatch (compiled : Str) : Str :=
  let glsl := compiled.drop versionDirectiveES.length
  let glsl := replaceFirst fragDef [] glsl
  replaceFirst fragColor (lit "gl_FragColor") glsl

/-- The per-stage transpilation `CompileShader`: sampler reconciliation,
uniform flattening of the first uniform buffer, renaming of the unused struct
instance, emission, textual cleanup, and the platform patch. The unchecked
`resources.uniform_buffers[0]` indexing is embedded totally via `head?`, with
the out-of-bounds case reported as `missingUniformBuffer`. -/
def CompileShader (stage : EShLanguage) (model : StageModel) (android : Bool) :
    Except CompileError StageOutput :=
  let st := reconcileSamplers model.combinedSamplers model.separate_samplers
    model.symbols
  match model.uniform_buffers.head? with
  | none => .error .missingUniformBuffer
  | some uniformBuffer =>
    match buildHeaders uniformBuffer.members with
    | .error e => .error e
    | .ok headers =>
      let st := (st.set_name uniformBuffer.id (unusedName stage)).unset_decoration
        uniformBuffer.id
      let compiled := emitText android headers model.body
      let glsl0 := cleanupText stage compiled
      let glsl := if android then androidPatch glsl0 else glsl0
      .ok ⟨st, compiled, glsl⟩

/-- The outcome of `AddShader` for one stage: the external glslang parse
either succeeds or the call throws. -/
def AddShader (parseOk : Bool) : Except CompileError Unit :=
  if parseOk then .ok () else .error .parseFailure

/-- The inputs of one `ShaderCompiler::Compile` call: the outcomes of the
external parse and link steps and the per-stage semantic models produced by
the external lowering and re-parsing. -/
structure CompileInput where
  vertexParseOk : Bool
  fragmentParseOk : Bool
  linkOk : Bool
  vertexModel : StageModel
  fragmentModel : StageModel

/-- The entry point `ShaderCompiler::Compile`: parse both stages, link,
transpile the vertex then the fragment stage, and on success invoke the
`onCompiled` callback exactly once with both stage results; its value is what
the call produces. Any failure aborts the whole call before the callback. -/
def ShaderCompiler.Compile {α : Type} (android : Bool) (inp : CompileInput)
    (onCompiled : StageOutput → StageOutput → α) : Except CompileError α :=
  match AddShader inp.vertexParseOk with
  | .error e => .error e
  | .ok _ =>
    match AddShader inp.fragmentParseOk with
    | .error e => .error e
    | .ok _ =>
      match inp.linkOk with
      | false => .error .linkFailure
      | true =>
        match CompileShader .EShLangVertex inp.vertexModel android with
        | .error e => .error e
        | .ok v =>
          match CompileShader .EShLangFragment inp.fragmentModel android with
          | .error e => .error e
          | .ok f => .ok (onCompiled v f)

theorem combinedTarget_of_find? {cs : List CombinedImageSampler} {c : CombinedImageSampler}
    {i : Nat} (h : cs.find? (fun combined => combined.sampler_id == i) = some c) :
    combinedTarget cs i = c.combined_id := by
  simp [combinedTarget, h]

theorem combinedTarget_of_find?_none {cs : List CombinedImageSampler} {i : Nat}
    (h : cs.find? (fun combined => combined.sampler_id == i) = none) :
    combinedTarget cs i = i := by
  simp [combinedTarget, h]

theorem find?_sampler_mem {cs : List CombinedImageSampler} {c : CombinedImageSampler}
    {i : Nat} (h : cs.find? (fun combined => combined.sampler_id == i) = some c) :
    c ∈ cs ∧ c.sampler_id = i := by
  refine ⟨List.mem_of_find?_eq_some h, ?_⟩
  have := List.find?_some h
  simpa using this

theorem reconcileSamplerStep_target (cs : List CombinedImageSampler)
    (st : SymbolState) (sep : Resource) :
    (reconcileSamplerStep cs st sep).name (combinedTarget cs sep.id) = sep.name ∧
    (reconcileSamplerStep cs st sep).binding (combinedTarget cs sep.id) =
      some (st.get_decoration sep.id) := by
  constructor
  · simp [reconcileSamplerStep, SymbolState.set_name, SymbolState.set_decoration]
  · simp [reconcileSamplerStep, SymbolState.set_name, SymbolState.set_decoration]

theorem reconcileSamplerStep_other {cs : List CombinedImageSampler}
    {st : SymbolState} {sep : Resource} {t : Nat}
    (h : t ≠ combinedTarget cs sep.id) :
    (reconcileSamplerStep cs st sep).name t = st.name t ∧
    (reconcileSamplerStep cs st sep).binding t = st.binding t := by
  constructor
  · simp [reconcileSamplerStep, SymbolState.set_name, SymbolState.set_decoration, h]
  · simp [reconcileSamplerStep, SymbolState.set_name, SymbolState.set_decoration, h]

theorem reconcileSamplers_preserve {cs : List CombinedImageSampler}
    {seps : List Resource} {t : Nat}
    (h : ∀ s ∈ seps, combinedTarget cs s.id ≠ t) :
    ∀ st : SymbolState,
      (reconcileSamplers cs seps st).name t = st.name t ∧
      (reconcileSamplers cs seps st).binding t = st.binding t := by
  induction seps with
  | nil => intro st; exact ⟨rfl, rfl⟩
  | cons s0 rest ih =>
    intro st
    have hstep := @reconcileSamplerStep_other cs st s0 _
      (Ne.symm (h s0 (List.mem_cons_self s0 rest)))
    have hrest := ih (fun s hs => h s (List.mem_cons_of_mem s0 hs))
      (reconcileSamplerStep cs st s0)
    rw [reconcileSamplers, List.foldl_cons]
    exact ⟨(hrest.1).trans hstep.1, (hrest.2).trans hstep.2⟩

/-- Distinctness of write targets across separate samplers, under the SPIR-V
id-uniqueness invariants: separate samplers have pairwise distinct ids, newly
created combined ids collide with no separate-sampler id, and combined ids are
pairwise distinct. -/
theorem combinedTarget_injective {cs : List CombinedImageSampler}
    {seps : List Resource}
    (hdisj : ∀ c ∈ cs, ∀ s ∈ seps, c.combined_id ≠ s.id)
    (hcids : (cs.map CombinedImageSampler.combined_id).Nodup)
    {s1 s2 : Resource} (h1 : s1 ∈ seps) (h2 : s2 ∈ seps)
    (hne : s1.id ≠ s2.id) :
    combinedTarget cs s1.id ≠ combinedTarget cs s2.id := by
  cases hf1 : cs.find? (fun combined => combined.sampler_id == s1.id) with
  | none =>
    cases hf2 : cs.find? (fun combined => combined.sampler_id == s2.id) with
    | none =>
      rw [combinedTarget_of_find?_none hf1, combinedTarget_of_find?_none hf2]
      exact hne
    | some c2 =>
      rw [combinedTarget_of_find?_none hf1, combinedTarget_of_find? hf2]
      obtain ⟨hc2mem, _⟩ := find?_sampler_mem hf2
      exact fun he => hdisj c2 hc2mem s1 h1 he.symm
  | some c1 =>
    obtain ⟨hc1mem, hc1id⟩ := find?_sampler_mem hf1
    cases hf2 : cs.find? (fun combined => combined.sampler_id == s2.id) with
    | none =>
      rw [combinedTarget_of_find? hf1, combinedTarget_of_find?_none hf2]
      exact hdisj c1 hc1mem s2 h2
    | some c2 =>
      obtain ⟨hc2mem, hc2id⟩ := find?_sampler_mem hf2
      rw [combinedTarget_of_find? hf1, combinedTarget_of_find? hf2]
      intro he
      have hc : c1 = c2 :=
        List.inj_on_of_nodup_map hcids hc1mem hc2mem he
      exact hne (by rw [← hc1id, ← hc2id, hc])

/-- Main reconciliation-loop lemma: for a separate sampler in the list, the
final state carries its reflected name and its original binding at its write
target, provided the id-uniqueness invariants hold. -/
theorem reconcileSamplers_sound {cs : List CombinedImageSampler}
    {seps : List Resource}
    (hids : (seps.map Resource.id).Nodup)
    (hdisj : ∀ c ∈ cs, ∀ s ∈ seps, c.combined_id ≠ s.id)
    (hcids : (cs.map CombinedImageSampler.combined_id).Nodup)
    {sep : Resource} (hsep : sep ∈ seps) :
    ∀ st : SymbolState,
      (reconcileSamplers cs seps st).name (combinedTarget cs sep.id) = sep.name ∧
      (reconcileSamplers cs seps st).binding (combinedTarget cs sep.id) =
        some (st.get_decoration sep.id) := by
  induction seps with
  | nil => cases hsep
  | cons s0 rest ih =>
    intro st
    rw [reconcileSamplers, List.foldl_cons]
    have hids0 : s0.id ∉ rest.map Resource.id := by
      have := hids
      rw [List.map_cons, List.nodup_cons] at this
      exact this.1
    rcases List.mem_cons.mp hsep with rfl | hmem
    · -- the head iteration writes the target, and later iterations avoid it
      have hstep := reconcileSamplerStep_target cs st sep
      have hpres : ∀ s ∈ rest, combinedTarget cs s.id ≠ combinedTarget cs sep.id := by
        intro s hs
        have hne : s.id ≠ sep.id := by
          intro he
          exact hids0 (he ▸ List.mem_map_of_mem Resource.id hs)
        exact combinedTarget_injective hdisj hcids
          (List.mem_cons_of_mem sep hs) (List.mem_cons_self sep rest) hne
      have hrest := reconcileSamplers_preserve hpres (reconcileSamplerStep cs st sep)
      rw [reconcileSamplers] at hrest
      exact ⟨hrest.1.trans hstep.1, hrest.2.trans hstep.2⟩
    · -- the head iteration does not disturb the separate sampler's binding
      have hne0 : combinedTarget cs s0.id ≠ sep.id := by
        cases hf0 : cs.find? (fun combined => combined.sampler_id == s0.id) with
        | none =>
          rw [combinedTarget_of_find?_none hf0]
          intro he
          exact hids0 (by rw [he]; exact List.mem_map_of_mem Resource.id hmem)
        | some c0 =>
          rw [combinedTarget_of_find? hf0]
          obtain ⟨hc0mem, _⟩ := find?_sampler_mem hf0
          exact hdisj c0 hc0mem sep (List.mem_cons_of_mem s0 hmem)
      have hids' : (rest.map Resource.id).Nodup := by
        have := hids
        rw [List.map_cons, List.nodup_cons] at this
        exact this.2
      have hdisj' : ∀ c ∈ cs, ∀ s ∈ rest, c.combined_id ≠ s.id :=
        fun c hc s hs => hdisj c hc s (List.mem_cons_of_mem s0 hs)
      have hrec := ih hids' hdisj' hmem (reconcileSamplerStep cs st s0)
      rw [reconcileSamplers] at hrec
      refine ⟨hrec.1, hrec.2.trans ?_⟩
      have hbind := (@reconcileSamplerStep_other cs st s0 _ (Ne.symm hne0)).2
      simp [SymbolState.get_decoration, hbind]

theorem uniformDecl_vec4 {m : MemberInfo} (h1 : m.columns = 1) (h4 : m.vecsize = 4) :
    uniformDecl m = .ok (lit "uniform " ++ lit "vec4 " ++ m.name ++ lit ";") := by
  simp [uniformDecl, h1, h4]

theorem uniformDecl_mat4 {m : MemberInfo} (h1 : m.columns = 4) (h4 : m.vecsize = 4) :
    uniformDecl m = .ok (lit "uniform " ++ lit "mat4 " ++ m.name ++ lit ";") := by
  simp [uniformDecl, h1, h4]

theorem uniformDecl_error {m : MemberInfo}
    (h : ¬(m.columns = 1 ∧ m.vecsize = 4) ∧ ¬(m.columns = 4 ∧ m.vecsize = 4)) :
    uniformDecl m = .error .unsupportedUniformShape := by
  simp [uniformDecl, h.1, h.2]

/-- Two members emitting the same flat declaration have the same name. -/
theorem uniformDecl_ok_name {m1 m2 : MemberInfo} {d : Str}
    (h1 : uniformDecl m1 = .ok d) (h2 : uniformDecl m2 = .ok d) :
    m1.name = m2.name := by
  unfold uniformDecl at h1 h2
  split_ifs at h1 h2 with a1 a2 a3 a4 <;> simp only [Except.ok.injEq] at h1 h2
  · -- both vec4
    rw [← h2] at h1
    simp only [List.append_assoc] at h1
    have := List.append_cancel_left (List.append_cancel_left h1)
    exact List.append_cancel_right this
  · -- m1 vec4, m2 mat4
    rw [← h2] at h1
    simp only [List.append_assoc] at h1
    have := List.append_cancel_left h1
    have h8 : ('v' : Char) = 'm' := congrArg (fun l => l.headD 'x') this
    exact absurd h8 (by decide)
  · -- m1 mat4, m2 vec4
    rw [← h2] at h1
    simp only [List.append_assoc] at h1
    have := List.append_cancel_left h1
    have h8 : ('m' : Char) = 'v' := congrArg (fun l => l.headD 'x') this
    exact absurd h8 (by decide)
  · -- both mat4
    rw [← h2] at h1
    simp only [List.append_assoc] at h1
    have := List.append_cancel_left (List.append_cancel_left h1)
    exact List.append_cancel_right this

theorem buildHeaders_mem : ∀ {l : List MemberInfo} {hs : List Str},
    buildHeaders l = .ok hs → ∀ {d : Str}, d ∈ hs →
    ∃ m ∈ l, uniformDecl m = .ok d := by
  intro l
  induction l with
  | nil =>
    intro hs h d hd
    simp [buildHeaders] at h
    subst h
    cases hd
  | cons m0 rest ih =>
    intro hs h d hd
    rw [buildHeaders] at h
    cases hd0 : uniformDecl m0 with
    | error e => rw [hd0] at h; cases h
    | ok d0 =>
      rw [hd0] at h
      cases hrest : buildHeaders rest with
      | error e => rw [hrest] at h; cases h
      | ok ds =>
        rw [hrest] at h
        simp only [Except.ok.injEq] at h
        subst h
        rcases List.mem_cons.mp hd with rfl | hds
        · exact ⟨m0, List.mem_cons_self m0 rest, hd0⟩
        · obtain ⟨m, hm, hdm⟩ := ih hrest hds
          exact ⟨m, List.mem_cons_of_mem m0 hm, hdm⟩

theorem buildHeaders_mem_decl : ∀ {l : List MemberInfo} {hs : List Str},
    buildHeaders l = .ok hs → ∀ {m : MemberInfo}, m ∈ l →
    ∃ d : Str, uniformDecl m = .ok d ∧ d ∈ hs := by
  intro l
  induction l with
  | nil => intro hs h m hm; cases hm
  | cons m0 rest ih =>
    intro hs h m hm
    rw [buildHeaders] at h
    cases hd0 : uniformDecl m0 with
    | error e => rw [hd0] at h; cases h
    | ok d0 =>
      rw [hd0] at h
      cases hrest : buildHeaders rest with
      | error e => rw [hrest] at h; cases h
      | ok ds =>
        rw [hrest] at h
        simp only [Except.ok.injEq] at h
        subst h
        rcases List.mem_cons.mp hm with rfl | hmem
        · exact ⟨d0, hd0, List.mem_cons_self d0 ds⟩
        · obtain ⟨d, hd, hds⟩ := ih hrest hmem
          exact ⟨d, hd, List.mem_cons_of_mem d0 hds⟩

/-- Under pairwise-distinct member names, each member's flat declaration
occurs exactly once in the header-line list. -/
theorem buildHeaders_count : ∀ {l : List MemberInfo} {hs : List Str},
    buildHeaders l = .ok hs → (l.map MemberInfo.name).Nodup →
    ∀ {m : MemberInfo} {d : Str}, m ∈ l → uniformDecl m = .ok d →
    hs.count d = 1 := by
  intro l
  induction l with
  | nil => intro hs h hnd m d hm; cases hm
  | cons m0 rest ih =>
    intro hs h hnd m d hm hd
    rw [buildHeaders] at h
    cases hd0 : uniformDecl m0 with
    | error e => rw [hd0] at h; cases h
    | ok d0 =>
      rw [hd0] at h
      cases hrest : buildHeaders rest with
      | error e => rw [hrest] at h; cases h
      | ok ds =>
        rw [hrest] at h
        simp only [Except.ok.injEq] at h
        subst h
        rw [List.map_cons, List.nodup_cons] at hnd
        rcases List.mem_cons.mp hm with rfl | hmem
        · -- the head member: its declaration heads the list and is absent below
          have hdd0 : d = d0 := by
            rw [hd] at hd0
            exact (Except.ok.injEq _ _ ▸ hd0).symm ▸ rfl
          subst hdd0
          have hnotin : d ∉ ds := by
            intro hin
            obtain ⟨m', hm', hdm'⟩ := buildHeaders_mem hrest hin
            have : m.name = m'.name := uniformDecl_ok_name hd hdm'
            exact hnd.1 (this ▸ List.mem_map_of_mem MemberInfo.name hm')
          rw [List.count_cons_self, List.count_eq_zero.mpr hnotin]
        · -- a later member: the head declaration differs from this one
          have hne : d0 ≠ d := by
            intro he
            subst he
            have : m0.name = m.name := uniformDecl_ok_name hd0 hd
            exact hnd.1 (this ▸ List.mem_map_of_mem MemberInfo.name hmem)
          rw [List.count_cons, if_neg (by simpa using hne)]
          simpa using ih hrest hnd.2 hmem hd

theorem buildHeaders_error_kind : ∀ {l : List MemberInfo} {e : CompileError},
    buildHeaders l = .error e → e = .unsupportedUniformShape := by
  intro l
  induction l with
  | nil => intro e h; cases h
  | cons m0 rest ih =>
    intro e h
    rw [buildHeaders] at h
    cases hd0 : uniformDecl m0 with
    | error e0 =>
      rw [hd0] at h
      have : e0 = .unsupportedUniformShape := by
        unfold uniformDecl at hd0
        split_ifs at hd0
        · simp_all
      cases h
      exact this
    | ok d0 =>
      rw [hd0] at h
      cases hrest : buildHeaders rest with
      | error e1 =>
        rw [hrest] at h
        cases h
        exact ih hrest
      | ok ds => rw [hrest] at h; cases h

theorem buildHeaders_error_of_bad : ∀ {l : List MemberInfo} {m : MemberInfo},
    m ∈ l → uniformDecl m = .error .unsupportedUniformShape →
    buildHeaders l = .error .unsupportedUniformShape := by
  intro l
  induction l with
  | nil => intro m hm; cases hm
  | cons m0 rest ih =>
    intro m hm hbad
    rw [buildHeaders]
    rcases List.mem_cons.mp hm with rfl | hmem
    · rw [hbad]
    · cases hd0 : uniformDecl m0 with
      | error e0 =>
        have : e0 = .unsupportedUniformShape := by
          unfold uniformDecl at hd0
          split_ifs at hd0
          · simp_all
        rw [this]
      | ok d0 =>
        rw [ih hmem hbad]

/-- Inversion of a successful per-stage compilation: the first uniform buffer
exists, the headers built from its members succeeded, and the emitted and
final texts have the pipeline's shape. -/
theorem CompileShader_ok_inv {stage : EShLanguage} {model : StageModel}
    {android : Bool} {out : StageOutput}
    (h : CompileShader stage model android = .ok out) :
    ∃ ub headers, model.uniform_buffers.head? = some ub ∧
      buildHeaders ub.members = .ok headers ∧
      out.emitted = emitText android headers model.body ∧
      out.text = (if android then
          androidPatch (cleanupText stage (emitText android headers model.body))
        else cleanupText stage (emitText android headers model.body)) := by
  unfold CompileShader at h
  split at h
  · cases h
  · rename_i ub1 hub1
    split at h
    · cases h
    · rename_i headers hb
      simp only [Except.ok.injEq] at h
      refine ⟨ub1, headers, hub1, hb, ?_, ?_⟩
      · rw [← h]
      · rw [← h]

/-- C1: for every separate-sampler resource whose combined counterpart is
found (first combined entry with equal sampler id), the state after the
sampler-reconciliation loop carries the separate sampler's reflected name and
its original binding decoration on the combined resource, overwriting the
automatically assigned ones.  The hypotheses are the SPIR-V id-uniqueness
invariants: distinct separate-sampler ids, distinct combined ids, and
freshness of combined ids with respect to separate-sampler ids. -/
theorem c1_sampler_reconciliation_transfer
    (cs : List CombinedImageSampler) (seps : List Resource) (st : SymbolState)
    (sep : Resource) (c : CombinedImageSampler)
    (hsep : sep ∈ seps)
    (hids : (seps.map Resource.id).Nodup)
    (hdisj : ∀ x ∈ cs, ∀ s ∈ seps, x.combined_id ≠ s.id)
    (hcids : (cs.map CombinedImageSampler.combined_id).Nodup)
    (hfind : cs.find? (fun combined => combined.sampler_id == sep.id) = some c) :
    (reconcileSamplers cs seps st).name c.combined_id = sep.name ∧
    (reconcileSamplers cs seps st).get_decoration c.combined_id =
      st.get_decoration sep.id := by
  have hsound := reconcileSamplers_sound hids hdisj hcids hsep st
  rw [combinedTarget_of_find? hfind] at hsound
  refine ⟨hsound.1, ?_⟩
  rw [SymbolState.get_decoration, hsound.2]
  rfl

def stEmpty : SymbolState := ⟨fun _ => [], fun _ => none⟩

def c1Sep : Resource := ⟨3, lit "albedoSampler"⟩

def c1Combined : CombinedImageSampler := ⟨7, 5, 3⟩

def c1State : SymbolState :=
  ⟨fun _ => lit "SPIRV_Cross_Combined", fun i => if i = 3 then some 2 else none⟩

theorem c1_witness :
    (c1Sep ∈ [c1Sep] ∧ ([c1Sep].map Resource.id).Nodup ∧
      (∀ x ∈ [c1Combined], ∀ s ∈ [c1Sep], x.combined_id ≠ s.id) ∧
      ([c1Combined].map CombinedImageSampler.combined_id).Nodup ∧
      [c1Combined].find? (fun combined => combined.sampler_id == c1Sep.id) =
        some c1Combined) ∧
    ((reconcileSamplers [c1Combined] [c1Sep] c1State).name c1Combined.combined_id =
        c1Sep.name ∧
      (reconcileSamplers [c1Combined] [c1Sep] c1State).get_decoration
          c1Combined.combined_id =
        c1State.get_decoration c1Sep.id) :=
  ⟨⟨by decide, by decide, by decide, by decide, by decide⟩,
    c1_sampler_reconciliation_transfer [c1Combined] [c1Sep] c1State c1Sep c1Combined
      (by decide) (by decide) (by decide) (by decide) (by decide)⟩

/-- C10: a separate sampler with no combined counterpart becomes its own write
target: after the loop it carries its own reflected name and its original
binding, its loop iteration leaves every combined resource's name and binding
untouched, and the loop is a total function (it can raise no error). -/
theorem c10_unmatched_sampler_self_transfer
    (cs : List CombinedImageSampler) (seps : List Resource) (st : SymbolState)
    (sep : Resource)
    (hsep : sep ∈ seps)
    (hids : (seps.map Resource.id).Nodup)
    (hdisj : ∀ x ∈ cs, ∀ s ∈ seps, x.combined_id ≠ s.id)
    (hcids : (cs.map CombinedImageSampler.combined_id).Nodup)
    (hnone : cs.find? (fun combined => combined.sampler_id == sep.id) = none) :
    ((reconcileSamplers cs seps st).name sep.id = sep.name ∧
      (reconcileSamplers cs seps st).get_decoration sep.id =
        st.get_decoration sep.id) ∧
    (∀ x ∈ cs,
      (reconcileSamplerStep cs st sep).name x.combined_id = st.name x.combined_id ∧
      (reconcileSamplerStep cs st sep).binding x.combined_id =
        st.binding x.combined_id) := by
  constructor
  · have hsound := reconcileSamplers_sound hids hdisj hcids hsep st
    rw [combinedTarget_of_find?_none hnone] at hsound
    refine ⟨hsound.1, ?_⟩
    rw [SymbolState.get_decoration, hsound.2]
    rfl
  · intro x hx
    have hne : x.combined_id ≠ combinedTarget cs sep.id := by
      rw [combinedTarget_of_find?_none hnone]
      exact hdisj x hx sep hsep
    exact reconcileSamplerStep_other hne

def c10Sep : Resource := ⟨4, lit "shadowSampler"⟩

def c10Combined : CombinedImageSampler := ⟨9, 5, 3⟩

theorem c10_witness :
    (c10Sep ∈ [c10Sep] ∧ ([c10Sep].map Resource.id).Nodup ∧
      (∀ x ∈ [c10Combined], ∀ s ∈ [c10Sep], x.combined_id ≠ s.id) ∧
      ([c10Combined].map CombinedImageSampler.combined_id).Nodup ∧
      [c10Combined].find? (fun combined => combined.sampler_id == c10Sep.id) =
        none) ∧
    (((reconcileSamplers [c10Combined] [c10Sep] c1State).name c10Sep.id =
          c10Sep.name ∧
        (reconcileSamplers [c10Combined] [c10Sep] c1State).get_decoration
            c10Sep.id =
          c1State.get_decoration c10Sep.id) ∧
      (∀ x ∈ [c10Combined],
        (reconcileSamplerStep [c10Combined] c1State c10Sep).name x.combined_id =
          c1State.name x.combined_id ∧
        (reconcileSamplerStep [c10Combined] c1State c10Sep).binding x.combined_id =
          c1State.binding x.combined_id)) :=
  ⟨⟨by decide, by decide, by decide, by decide, by decide⟩,
    c10_unmatched_sampler_self_transfer [c10Combined] [c10Sep] c1State c10Sep
      (by decide) (by decide) (by decide) (by decide) (by decide)⟩

/-- C9: in the total embedding the out-of-bounds branch of the
`uniform_buffers[0]` indexing is taken exactly when the stage declares no
uniform-buffer resource: `CompileShader` returns `missingUniformBuffer` if
and only if the list of uniform buffers is empty. -/
theorem c9_uniform_buffer_indexing (stage : EShLanguage) (model : StageModel)
    (android : Bool) :
    CompileShader stage model android = .error .missingUniformBuffer ↔
    model.uniform_buffers = [] := by
  constructor
  · intro h
    unfold CompileShader at h
    split at h
    · rename_i hub
      exact List.head?_eq_none_iff.mp hub
    · rename_i ub1 hub1
      split at h
      · rename_i e hb
        cases h
        have := buildHeaders_error_kind hb
        cases this
      · cases h
  · intro h
    unfold CompileShader
    rw [h]
    rfl

/-- A header line occurs inside the joined header text. -/
theorem joinLines_mem {d : Str} {headers : List Str} (h : d ∈ headers) :
    ∃ x y, joinLines headers = x ++ d ++ '\n' :: y := by
  induction headers with
  | nil => cases h
  | cons h0 rest ih =>
    rcases List.mem_cons.mp h with rfl | hmem
    · exact ⟨[], joinLines rest, by simp [joinLines]⟩
    · obtain ⟨x, y, hxy⟩ := ih hmem
      refine ⟨h0 ++ '\n' :: x, y, ?_⟩
      rw [joinLines] at hxy ⊢
      rw [List.foldr_cons, hxy]
      simp

/-- C2: for every member of the first uniform buffer of a successfully
compiled stage, a flat `uniform vec4 <name>;` or `uniform mat4 <name>;`
header line matching the member's shape is built, it occurs exactly once in
the header-line list (member names being pairwise distinct), and the emitted
text is the version directive followed by those header lines followed by the
body, so the declaration is prepended before the emitted body. -/
theorem c2_flat_uniform_round_trip (stage : EShLanguage) (model : StageModel)
    (android : Bool) (out : StageOutput) (ub : UniformBufferRes) (m : MemberInfo)
    (h : CompileShader stage model android = .ok out)
    (hub : model.uniform_buffers.head? = some ub)
    (hnd : (ub.members.map MemberInfo.name).Nodup)
    (hm : m ∈ ub.members) :
    ∃ headers d, buildHeaders ub.members = .ok headers ∧
      uniformDecl m = .ok d ∧
      headers.count d = 1 ∧
      containsSub d out.emitted = true ∧
      ((m.columns = 1 ∧ m.vecsize = 4) →
        d = lit "uniform " ++ lit "vec4 " ++ m.name ++ lit ";") ∧
      ((m.columns = 4 ∧ m.vecsize = 4) →
        d = lit "uniform " ++ lit "mat4 " ++ m.name ++ lit ";") ∧
      out.emitted = emitText android headers model.body := by
  obtain ⟨ub1, headers, hub1, hb, hemit, -⟩ := CompileShader_ok_inv h
  have hubeq : ub1 = ub := Option.some.inj (hub1.symm.trans hub)
  subst hubeq
  obtain ⟨d, hd, hdmem⟩ := buildHeaders_mem_decl hb hm
  have hcount := buildHeaders_count hb hnd hm hd
  have hocc : containsSub d out.emitted = true := by
    obtain ⟨x, y, hxy⟩ := joinLines_mem hdmem
    rw [hemit]
    unfold emitText
    rw [hxy]
    have hassoc :
        (if android then versionDirectiveES else versionDirectiveDesktop) ++
            (x ++ d ++ '\n' :: y) ++ model.body =
          ((if android then versionDirectiveES else versionDirectiveDesktop) ++ x) ++
            d ++ ('\n' :: (y ++ model.body)) := by
      simp [List.append_assoc]
    rw [hassoc]
    exact containsSub_append_middle _ _ _
  refine ⟨headers, d, hb, hd, hcount, hocc, ?_, ?_, hemit⟩
  · rintro ⟨h1, h4⟩
    exact Except.ok.inj (hd.symm.trans (uniformDecl_vec4 h1 h4))
  · rintro ⟨h1, h4⟩
    exact Except.ok.inj (hd.symm.trans (uniformDecl_mat4 h1 h4))

def c2Member : MemberInfo := ⟨lit "world", 4, 4⟩

def c2UB : UniformBufferRes := ⟨1, [c2Member]⟩

def c2Model : StageModel := ⟨[], [], [c2UB], stEmpty, []⟩

def c2Headers : List Str := [lit "uniform " ++ lit "mat4 " ++ lit "world" ++ lit ";"]

def c2Out : StageOutput :=
  ⟨(stEmpty.set_name 1 (unusedName .EShLangVertex)).unset_decoration 1,
    emitText false c2Headers [],
    cleanupText .EShLangVertex (emitText false c2Headers [])⟩

theorem c2_witness :
    (CompileShader .EShLangVertex c2Model false = .ok c2Out ∧
      c2Model.uniform_buffers.head? = some c2UB ∧
      (c2UB.members.map MemberInfo.name).Nodup ∧
      c2Member ∈ c2UB.members) ∧
    (∃ headers d, buildHeaders c2UB.members = .ok headers ∧
      uniformDecl c2Member = .ok d ∧
      headers.count d = 1 ∧
      containsSub d c2Out.emitted = true ∧
      ((c2Member.columns = 1 ∧ c2Member.vecsize = 4) →
        d = lit "uniform " ++ lit "vec4 " ++ c2Member.name ++ lit ";") ∧
      ((c2Member.columns = 4 ∧ c2Member.vecsize = 4) →
        d = lit "uniform " ++ lit "mat4 " ++ c2Member.name ++ lit ";") ∧
      c2Out.emitted = emitText false headers c2Model.body) :=
  ⟨⟨rfl, rfl, by decide, by decide⟩,
    c2_flat_uniform_round_trip .EShLangVertex c2Model false c2Out c2UB c2Member rfl
      rfl (by decide) (by decide)⟩

/-- C3: a member of the first uniform buffer of either stage whose shape is
neither a 4-component vector nor a 4x4 matrix makes the per-stage
transpilation fail with `unsupportedUniformShape`, and the whole `Compile`
call abort with an error, so no declaration is ever emitted for it. -/
theorem c3_unsupported_shape_fatal {α : Type} (android : Bool)
    (inp : CompileInput) (stModel : StageModel) (ub : UniformBufferRes)
    (m : MemberInfo)
    (hstage : stModel = inp.vertexModel ∨ stModel = inp.fragmentModel)
    (hub : stModel.uniform_buffers.head? = some ub)
    (hmem : m ∈ ub.members)
    (hbad : ¬(m.columns = 1 ∧ m.vecsize = 4) ∧ ¬(m.columns = 4 ∧ m.vecsize = 4)) :
    (∀ stage, CompileShader stage stModel android =
      .error .unsupportedUniformShape) ∧
    (∀ onCompiled : StageOutput → StageOutput → α,
      ∃ e, ShaderCompiler.Compile android inp onCompiled = .error e) := by
  have hbh : buildHeaders ub.members = .error .unsupportedUniformShape :=
    buildHeaders_error_of_bad hmem (uniformDecl_error hbad)
  have hstageAll : ∀ stage, CompileShader stage stModel android =
      .error .unsupportedUniformShape := by
    intro stage
    unfold CompileShader
    simp only [hub, hbh]
  refine ⟨hstageAll, ?_⟩
  intro onC
  cases hvp : inp.vertexParseOk with
  | false =>
    exact ⟨.parseFailure, by unfold ShaderCompiler.Compile AddShader; simp [hvp]⟩
  | true =>
    cases hfp : inp.fragmentParseOk with
    | false =>
      exact ⟨.parseFailure, by
        unfold ShaderCompiler.Compile AddShader; simp [hvp, hfp]⟩
    | true =>
      cases hl : inp.linkOk with
      | false =>
        exact ⟨.linkFailure, by
          unfold ShaderCompiler.Compile AddShader; simp [hvp, hfp, hl]⟩
      | true =>
        rcases hstage with heq | heq
        · exact ⟨.unsupportedUniformShape, by
            unfold ShaderCompiler.Compile AddShader
            simp [hvp, hfp, hl, heq ▸ hstageAll .EShLangVertex]⟩
        · cases hcv : CompileShader .EShLangVertex inp.vertexModel android with
          | error e =>
            exact ⟨e, by
              unfold ShaderCompiler.Compile AddShader
              simp [hvp, hfp, hl, hcv]⟩
          | ok v =>
            exact ⟨.unsupportedUniformShape, by
              unfold ShaderCompiler.Compile AddShader
              simp [hvp, hfp, hl, hcv, heq ▸ hstageAll .EShLangFragment]⟩

def c3Member : MemberInfo := ⟨lit "normal", 1, 3⟩

def c3UB : UniformBufferRes := ⟨1, [c3Member]⟩

def c3Model : StageModel := ⟨[], [], [c3UB], stEmpty, []⟩

def c3Input : CompileInput := ⟨true, true, true, c3Model, c3Model⟩

theorem c3_witness :
    ((c3Model = c3Input.vertexModel ∨ c3Model = c3Input.fragmentModel) ∧
      c3Model.uniform_buffers.head? = some c3UB ∧
      c3Member ∈ c3UB.members ∧
      (¬(c3Member.columns = 1 ∧ c3Member.vecsize = 4) ∧
        ¬(c3Member.columns = 4 ∧ c3Member.vecsize = 4))) ∧
    ((∀ stage, CompileShader stage c3Model false =
        .error .unsupportedUniformShape) ∧
      (∀ onCompiled : StageOutput → StageOutput → Bool,
        ∃ e, ShaderCompiler.Compile false c3Input onCompiled = .error e)) :=
  ⟨⟨Or.inl rfl, rfl, by decide, by decide⟩,
    c3_unsupported_shape_fatal false c3Input c3Model c3UB c3Member (Or.inl rfl)
      rfl (by decide) (by decide)⟩

/-- C4: any failing step — vertex parse, fragment parse, link, or either
stage's transpilation — makes the whole `Compile` call return an error for
every callback, so the callback is never invoked and no partial result is
delivered. -/
theorem c4_failure_aborts_without_callback {α : Type} (android : Bool)
    (inp : CompileInput)
    (hfail : inp.vertexParseOk = false ∨ inp.fragmentParseOk = false ∨
      inp.linkOk = false ∨
      (∃ e, CompileShader .EShLangVertex inp.vertexModel android = .error e) ∨
      (∃ e, CompileShader .EShLangFragment inp.fragmentModel android = .error e)) :
    ∀ onCompiled : StageOutput → StageOutput → α,
      ∃ e, ShaderCompiler.Compile android inp onCompiled = .error e := by
  intro onC
  cases hvp : inp.vertexParseOk with
  | false =>
    exact ⟨.parseFailure, by unfold ShaderCompiler.Compile AddShader; simp [hvp]⟩
  | true =>
    cases hfp : inp.fragmentParseOk with
    | false =>
      exact ⟨.parseFailure, by
        unfold ShaderCompiler.Compile AddShader; simp [hvp, hfp]⟩
    | true =>
      cases hl : inp.linkOk with
      | false =>
        exact ⟨.linkFailure, by
          unfold ShaderCompiler.Compile AddShader; simp [hvp, hfp, hl]⟩
      | true =>
        cases hcv : CompileShader .EShLangVertex inp.vertexModel android with
        | error e =>
          exact ⟨e, by
            unfold ShaderCompiler.Compile AddShader; simp [hvp, hfp, hl, hcv]⟩
        | ok v =>
          cases hcf : CompileShader .EShLangFragment inp.fragmentModel android with
          | error e =>
            exact ⟨e, by
              unfold ShaderCompiler.Compile AddShader
              simp [hvp, hfp, hl, hcv, hcf]⟩
          | ok f =>
            exfalso
            rcases hfail with h | h | h | ⟨e, h⟩ | ⟨e, h⟩ <;> simp_all

def c4Input : CompileInput := ⟨true, true, false, c3Model, c3Model⟩

theorem c4_witness :
    (c4Input.vertexParseOk = false ∨ c4Input.fragmentParseOk = false ∨
      c4Input.linkOk = false ∨
      (∃ e, CompileShader .EShLangVertex c4Input.vertexModel false = .error e) ∨
      (∃ e, CompileShader .EShLangFragment c4Input.fragmentModel false =
        .error e)) ∧
    (∃ e, ShaderCompiler.Compile false c4Input
      (fun _ _ => (0 : Nat)) = .error e) :=
  ⟨Or.inr (Or.inr (Or.inl rfl)),
    c4_failure_aborts_without_callback false c4Input
      (Or.inr (Or.inr (Or.inl rfl))) (fun _ _ => (0 : Nat))⟩

def c5CexModel : StageModel := ⟨[], [], [⟨1, []⟩], stEmpty,
  lit "Unused" ++ fragDef ++ lit "FS. = x;"⟩

def c5CexOut : StageOutput :=
  ⟨(stEmpty.set_name 1 (unusedName .EShLangFragment)).unset_decoration 1,
    emitText true [] c5CexModel.body,
    androidPatch (cleanupText .EShLangFragment (emitText true [] c5CexModel.body))⟩

/-- C5 counterexample: under the Android preset a fragment stage can compile
successfully while its final text still contains the stage-qualified accessor
`UnusedFS.`: the cleanup loop sees no occurrence, but the later deletion of
the fragment-output declaration splices one together, so the claim's
no-dangling-accessor guarantee fails on the patched final text. -/
theorem c5_counterexample :
    CompileShader .EShLangFragment c5CexModel true = .ok c5CexOut ∧
    containsSub (unusedUniformAccess .EShLangFragment) c5CexOut.text = true :=
  ⟨rfl, by decide⟩

/-- C5 (amended): for every successfully compiled stage, under either preset,
the textual-cleanup step deletes every occurrence of the stage-qualified
accessor — the cleaned text contains none — and whenever the emitted text
contains the stray unused uniform declaration marker, the comment-out step
turns it into a commented declaration.  The final text is the cleaned text
under the desktop preset (hence free of the accessor there), and the Android
patch of the cleaned text under the constrained preset, where the
declaration-deletion can splice an accessor occurrence back together. -/
theorem c5_unused_struct_neutrality_amended (stage : EShLanguage)
    (model : StageModel) (android : Bool) (out : StageOutput)
    (h : CompileShader stage model android = .ok out) :
    containsSub (unusedUniformAccess stage)
      (cleanupText stage out.emitted) = false ∧
    out.text = (if android then androidPatch (cleanupText stage out.emitted)
      else cleanupText stage out.emitted) ∧
    (android = false →
      containsSub (unusedUniformAccess stage) out.text = false) ∧
    (containsSub unusedUniform out.emitted = true →
      containsSub commentedUnusedUniform
        (replaceFirst unusedUniform commentedUnusedUniform out.emitted) = true) := by
  obtain ⟨ub, headers, -, -, hemit, htext⟩ := CompileShader_ok_inv h
  have hclean : containsSub (unusedUniformAccess stage)
      (cleanupText stage out.emitted) = false := by
    rw [cleanupText]
    have hne : unusedUniformAccess stage ≠ [] := by
      cases stage with
      | EShLangVertex => decide
      | EShLangFragment => decide
    exact containsSub_removeAll hne _
  have htext2 : out.text = (if android then
      androidPatch (cleanupText stage out.emitted)
      else cleanupText stage out.emitted) := by
    rw [← hemit] at htext
    exact htext
  refine ⟨hclean, htext2, ?_, ?_⟩
  · intro ha
    rw [htext2, ha]
    simpa using hclean
  · intro hc
    obtain ⟨⟨a, b⟩, hsp⟩ := Option.isSome_iff_exists.mp hc
    rw [replaceFirst_eq_of_splitFirst hsp]
    exact containsSub_append_middle _ _ _

def c5Model : StageModel := ⟨[], [], [⟨1, []⟩], stEmpty,
  lit "uniform Frame UnusedVS;\nUnusedVS.color = vColor;"⟩

def c5Out : StageOutput :=
  ⟨(stEmpty.set_name 1 (unusedName .EShLangVertex)).unset_decoration 1,
    emitText false [] c5Model.body,
    cleanupText .EShLangVertex (emitText false [] c5Model.body)⟩

theorem c5_amended_witness :
    CompileShader .EShLangVertex c5Model false = .ok c5Out ∧
    (containsSub (unusedUniformAccess .EShLangVertex)
        (cleanupText .EShLangVertex c5Out.emitted) = false ∧
      c5Out.text = (if false then
          androidPatch (cleanupText .EShLangVertex c5Out.emitted)
        else cleanupText .EShLangVertex c5Out.emitted) ∧
      (false = false →
        containsSub (unusedUniformAccess .EShLangVertex) c5Out.text = false) ∧
      (containsSub unusedUniform c5Out.emitted = true →
        containsSub commentedUnusedUniform
          (replaceFirst unusedUniform commentedUnusedUniform c5Out.emitted) =
          true)) :=
  ⟨rfl, c5_unused_struct_neutrality_amended .EShLangVertex c5Model false c5Out rfl⟩

/-- C7: when both parses, the link, and both per-stage transpilations succeed,
`Compile` returns exactly the value of one application of the `onCompiled`
callback to the two complete stage outputs: the callback is invoked exactly
once, synchronously, and its result is what the call yields. -/
theorem c7_callback_invoked_once {α : Type} (android : Bool)
    (inp : CompileInput) (onCompiled : StageOutput → StageOutput → α)
    (v f : StageOutput)
    (h1 : inp.vertexParseOk = true) (h2 : inp.fragmentParseOk = true)
    (h3 : inp.linkOk = true)
    (hv : CompileShader .EShLangVertex inp.vertexModel android = .ok v)
    (hf : CompileShader .EShLangFragment inp.fragmentModel android = .ok f) :
    ShaderCompiler.Compile android inp onCompiled = .ok (onCompiled v f) := by
  unfold ShaderCompiler.Compile AddShader
  simp [h1, h2, h3, hv, hf]

def c7Model : StageModel := ⟨[], [], [⟨1, []⟩], stEmpty, []⟩

def c7Input : CompileInput := ⟨true, true, true, c7Model, c7Model⟩

def c7OutV : StageOutput :=
  ⟨(stEmpty.set_name 1 (unusedName .EShLangVertex)).unset_decoration 1,
    emitText false [] [], cleanupText .EShLangVertex (emitText false [] [])⟩

def c7OutF : StageOutput :=
  ⟨(stEmpty.set_name 1 (unusedName .EShLangFragment)).unset_decoration 1,
    emitText false [] [], cleanupText .EShLangFragment (emitText false [] [])⟩

theorem c7_witness :
    (c7Input.vertexParseOk = true ∧ c7Input.fragmentParseOk = true ∧
      c7Input.linkOk = true ∧
      CompileShader .EShLangVertex c7Input.vertexModel false = .ok c7OutV ∧
      CompileShader .EShLangFragment c7Input.fragmentModel false = .ok c7OutF) ∧
    ShaderCompiler.Compile false c7Input (fun v f => (v.text, f.text)) =
      .ok (c7OutV.text, c7OutF.text) :=
  ⟨⟨rfl, rfl, rfl, rfl, rfl⟩,
    c7_callback_invoked_once false c7Input (fun v f => (v.text, f.text))
      c7OutV c7OutF rfl rfl rfl rfl rfl⟩

/-- C8: `Compile` is deterministic — two runs on equal inputs under the same
preset deliver the same outcome, in particular textually identical final
source text for each stage when both succeed.  The embedding is a pure
function, so determinism is inherited from the translation being
state-free. -/
theorem c8_compile_deterministic (android : Bool) (inp1 inp2 : CompileInput)
    (h : inp1 = inp2) :
    ShaderCompiler.Compile android inp1 (fun v f => (v.text, f.text)) =
      ShaderCompiler.Compile android inp2 (fun v f => (v.text, f.text)) := by
  subst h
  rfl

theorem c8_witness :
    c7Input = c7Input ∧
    ShaderCompiler.Compile false c7Input (fun v f => (v.text, f.text)) =
      ShaderCompiler.Compile false c7Input (fun v f => (v.text, f.text)) :=
  ⟨rfl, c8_compile_deterministic false c7Input c7Input rfl⟩

def c6Model : StageModel := ⟨[], [], [⟨1, []⟩], stEmpty,
  lit "layout(location = 0) out highp vec4 glFragColor;\nvoid main()\nglFragColor = a;\nglFragColor = b;\n"⟩

def c6Out : StageOutput :=
  ⟨(stEmpty.set_name 1 (unusedName .EShLangFragment)).unset_decoration 1,
    emitText true [] c6Model.body,
    androidPatch (cleanupText .EShLangFragment (emitText true [] c6Model.body))⟩

/-- C6 counterexample: a fragment stage that writes the fragment output twice
compiles successfully under the Android preset, yet its final text still
contains an unrewritten `glFragColor` reference, because the patch replaces
only the first occurrence.  This refutes the claim that every fragment-output
write targets `gl_FragColor`. -/
theorem c6_counterexample :
    CompileShader .EShLangFragment c6Model true = .ok c6Out ∧
    containsSub fragColor c6Out.text = true :=
  ⟨rfl, by decide⟩

/-- C6 (amended): the Android patch drops the fixed-length version-directive
prefix, deletes the first occurrence of the explicit fragment-output
declaration, and rewrites the first occurrence of the fragment-output name to
`gl_FragColor`; therefore when the declaration and (after its removal) the
output-name reference each occur exactly once — the hypothesized shape — the
final text has no leading version line, no explicit fragment-output
declaration, and no unrewritten fragment-output reference. -/
theorem c6_android_patch_amended (s rest a b p q : Str)
    (h1 : s = versionDirectiveES ++ rest)
    (h2 : splitFirst fragDef rest = some (a, b))
    (h4 : splitFirst fragColor (a ++ b) = some (p, q))
    (h5 : containsSub fragColor (p ++ lit "gl_FragColor" ++ q) = false)
    (h6 : containsSub fragDef (p ++ lit "gl_FragColor" ++ q) = false)
    (h7 : (lit "#version").isPrefixOf (p ++ lit "gl_FragColor" ++ q) = false) :
    androidPatch s = p ++ lit "gl_FragColor" ++ q ∧
    containsSub fragColor (androidPatch s) = false ∧
    containsSub fragDef (androidPatch s) = false ∧
    (lit "#version").isPrefixOf (androidPatch s) = false := by
  have hdrop : s.drop versionDirectiveES.length = rest := by
    rw [h1]
    exact List.drop_left _ _
  have e1 : replaceFirst fragDef [] rest = a ++ b := by
    have := @replaceFirst_eq_of_splitFirst fragDef [] rest a b h2
    simpa using this
  have e2 : replaceFirst fragColor (lit "gl_FragColor") (a ++ b) =
      p ++ lit "gl_FragColor" ++ q :=
    replaceFirst_eq_of_splitFirst h4
  have emain : androidPatch s = p ++ lit "gl_FragColor" ++ q := by
    show replaceFirst fragColor (lit "gl_FragColor")
      (replaceFirst fragDef [] (s.drop versionDirectiveES.length)) =
      p ++ lit "gl_FragColor" ++ q
    rw [hdrop, e1, e2]
  exact ⟨emain, emain ▸ h5, emain ▸ h6, emain ▸ h7⟩

def c6Rest : Str := fragDef ++ lit "\nvoid main()\nglFragColor = v;\n"

theorem c6_amended_witness :
    ((versionDirectiveES ++ c6Rest : Str) = versionDirectiveES ++ c6Rest ∧
      splitFirst fragDef c6Rest =
        some ([], lit "\nvoid main()\nglFragColor = v;\n") ∧
      splitFirst fragColor (([] : Str) ++ lit "\nvoid main()\nglFragColor = v;\n") =
        some (lit "\nvoid main()\n", lit " = v;\n") ∧
      containsSub fragColor
        (lit "\nvoid main()\n" ++ lit "gl_FragColor" ++ lit " = v;\n") = false ∧
      containsSub fragDef
        (lit "\nvoid main()\n" ++ lit "gl_FragColor" ++ lit " = v;\n") = false ∧
      (lit "#version").isPrefixOf
        (lit "\nvoid main()\n" ++ lit "gl_FragColor" ++ lit " = v;\n") = false) ∧
    (androidPatch (versionDirectiveES ++ c6Rest) =
        lit "\nvoid main()\n" ++ lit "gl_FragColor" ++ lit " = v;\n" ∧
      containsSub fragColor (androidPatch (versionDirectiveES ++ c6Rest)) = false ∧
      containsSub fragDef (androidPatch (versionDirectiveES ++ c6Rest)) = false ∧
      (lit "#version").isPrefixOf (androidPatch (versionDirectiveES ++ c6Rest)) =
        false) :=
  ⟨⟨rfl, by decide, by decide, by decide, by decide, by decide⟩,
    c6_android_patch_amended (versionDirectiveES ++ c6Rest) c6Rest []
      (lit "\nvoid main()\nglFragColor = v;\n") (lit "\nvoid main()\n")
      (lit " = v;\n") rfl (by decide) (by decide) (by decide) (by decide)
      (by decide)⟩
